import Mathlib

/-!
Verification of the ownership-scoped resource store of the recipe-app-api
repository. The repository's source tree here contains the API test suites
(`recipe/tests/test_tags_api.py`, `recipe/tests/test_ingredient_api.py`) and
the trivial user-registration view; the viewsets, models and serializers that
implement the store are not part of the tree, so the operations below are
modelled from the specification document and then checked against the
behaviour the test suites pin down.
-/

namespace RecipeApp

/-- User identities are modelled by their numeric primary key. -/
abbrev UserId := Nat

/-- Modelled from the spec: a Tag or Ingredient record `{id, name, owner}`
(the two kinds share this shape; `core.models.Tag` and
`core.models.Ingredient` are not under the source tree). -/
structure Resource where
  id : Nat
  name : String
  owner : UserId
deriving DecidableEq, Repr

/-- Modelled from the spec: a Recipe record
`{id, title, time_minutes, price, owner, tags, ingredients}` whose
many-to-many association sets are held as lists of resource ids; the decimal
price is carried in cents (`core.models.Recipe` is not under the source
tree, and no claim inspects the price). -/
structure Recipe where
  id : Nat
  title : String
  time_minutes : Nat
  price : Int
  owner : UserId
  tags : List Nat
  ingredients : List Nat
deriving DecidableEq, Repr

/-- Modelled from the spec: the persistent relational store holding every
user's Tags, Ingredients and Recipes. -/
structure Store where
  tags : List Resource
  ingredients : List Resource
  recipes : List Recipe
deriving DecidableEq, Repr

/-- Response statuses of the HTTP-style API: 200, 204, 404, 401. -/
inductive Status where
  | ok
  | noContent
  | notFound
  | unauthorized
deriving DecidableEq, Repr

/-- A response: a status plus the serialized list body (empty for
non-list operations). -/
structure Response where
  status : Status
  body : List Resource
deriving DecidableEq, Repr

/-- Modelled from the spec: a PATCH body `{name?: string, owner?: ignored}`;
the `owner` field may be supplied but the store never reads it. -/
structure Patch where
  name : Option String
  owner : Option UserId
deriving DecidableEq, Repr

/-- Insert a record into a list that is sorted descending by name, keeping
it sorted. -/
def insertDesc (r : Resource) : List Resource → List Resource
  | [] => [r]
  | x :: xs => if x.name ≤ r.name then r :: x :: xs else x :: insertDesc r xs

/-- Sort a record list descending by name, the default ordering of every
list result. -/
def sortDesc (l : List Resource) : List Resource :=
  l.foldr insertDesc []

/-- A record list is sorted descending by name. -/
def SortedDesc (l : List Resource) : Prop :=
  l.Pairwise (fun a b => b.name ≤ a.name)

/-- Keep the first record carrying each id not yet seen, accumulating the
ids already emitted. -/
def dedupByIdAux (seen : List Nat) : List Resource → List Resource
  | [] => []
  | r :: rs =>
    if r.id ∈ seen then dedupByIdAux seen rs
    else r :: dedupByIdAux (r.id :: seen) rs

/-- Keep the first record carrying each id: the `distinct` collapsing of
join rows into set semantics. -/
def dedupById (l : List Resource) : List Resource :=
  dedupByIdAux [] l

/-- Join rows: one copy of record `r` for each association set containing
`r.id`, mirroring the SQL join that yields one row per matching recipe. -/
def joinRows (assoc : List (List Nat)) : List Resource → List Resource
  | [] => []
  | r :: rs =>
    List.replicate (assoc.countP (fun ids => decide (r.id ∈ ids))) r
      ++ joinRows assoc rs

/-- A record is assigned to at least one recipe's association set. -/
def assignedB (assoc : List (List Nat)) (r : Resource) : Bool :=
  decide (0 < assoc.countP (fun ids => decide (r.id ∈ ids)))

/-- Modelled from the spec: `list(U, assigned_only)` over one resource kind.
The candidate set is filtered by owner first and ordered descending by name;
with `assigned_only` it is intersected with the instances referenced by at
least one recipe (owned by anyone) and de-duplicated (`recipe/views.py` is
not under the source tree). -/
def listCore (assoc : List (List Nat)) (records : List Resource)
    (u : UserId) (assignedOnly : Bool) : List Resource :=
  let owned := sortDesc (records.filter (fun r => r.owner == u))
  if assignedOnly then dedupById (joinRows assoc owned) else owned

/-- Modelled from the spec: `update(U, id, patch)`; NotFound when no record
with this id is owned by `U`, and the patch's `owner` field is never read
(`recipe/views.py` and `recipe/serializers.py` are not under the source
tree). -/
def updateCore (records : List Resource) (u : UserId) (i : Nat) (p : Patch) :
    Status × List Resource :=
  if records.any (fun r => r.id == i && r.owner == u) then
    (Status.ok,
      records.map (fun r =>
        if r.id == i && r.owner == u then
          { r with name := p.name.getD r.name }
        else r))
  else (Status.notFound, records)

/-- Modelled from the spec: `delete(U, id)` with the same
ownership-as-existence policy as update; on success the row is removed
(`recipe/views.py` is not under the source tree). -/
def deleteCore (records : List Resource) (u : UserId) (i : Nat) :
    Status × List Resource :=
  if records.any (fun r => r.id == i && r.owner == u) then
    (Status.noContent,
      records.filter (fun r => !(r.id == i && r.owner == u)))
  else (Status.notFound, records)

/-- The two resource kinds served by the identical endpoint families. -/
inductive Kind where
  | tag
  | ingredient
deriving DecidableEq, Repr

/-- The protected operations of one resource kind's endpoint family. -/
inductive Action where
  | list (assignedOnly : Bool)
  | update (i : Nat) (p : Patch)
  | delete (i : Nat)
deriving DecidableEq, Repr

/-- The record table of the given kind. -/
def recordsOf : Kind → Store → List Resource
  | Kind.tag, s => s.tags
  | Kind.ingredient, s => s.ingredients

/-- The association sets of the given kind over every recipe in the store,
regardless of the recipes' owners. -/
def assocOf : Kind → Store → List (List Nat)
  | Kind.tag, s => s.recipes.map Recipe.tags
  | Kind.ingredient, s => s.recipes.map Recipe.ingredients

/-- Replace the record table of the given kind. -/
def setRecords : Kind → Store → List Resource → Store
  | Kind.tag, s, l => { s with tags := l }
  | Kind.ingredient, s, l => { s with ingredients := l }

/-- Modelled from the spec: the request handler over the protected
endpoints; a request without an authenticated identity is rejected with
Unauthorized before any store access (the framework's auth layer is not
under the source tree). -/
def handle (auth : Option UserId) (k : Kind) (a : Action) (s : Store) :
    Response × Store :=
  match auth with
  | none => ({ status := Status.unauthorized, body := [] }, s)
  | some u =>
    match a with
    | Action.list ao =>
      ({ status := Status.ok,
         body := listCore (assocOf k s) (recordsOf k s) u ao }, s)
    | Action.update i p =>
      ({ status := (updateCore (recordsOf k s) u i p).1, body := [] },
        setRecords k s (updateCore (recordsOf k s) u i p).2)
    | Action.delete i =>
      ({ status := (deleteCore (recordsOf k s) u i).1, body := [] },
        setRecords k s (deleteCore (recordsOf k s) u i).2)

/-- Exchange a recipe's tag and ingredient association sets. -/
def swapRecipe (r : Recipe) : Recipe :=
  { r with tags := r.ingredients, ingredients := r.tags }

/-- Exchange the Tag and Ingredient tables of a store, swapping every
recipe's association sets accordingly. -/
def swapStore (s : Store) : Store :=
  { tags := s.ingredients, ingredients := s.tags,
    recipes := s.recipes.map swapRecipe }

/-- Well-formedness of a record table: ids are pairwise distinct, as the
relational store's primary-key constraint guarantees. -/
def NodupIds (l : List Resource) : Prop :=
  (l.map Resource.id).Nodup

instance (l : List Resource) : Decidable (NodupIds l) := by
  unfold NodupIds
  infer_instance

/-! Lemmas about the sorting step. -/

theorem insertDesc_perm (r : Resource) (l : List Resource) :
    List.Perm (insertDesc r l) (r :: l) := by
  induction l with
  | nil => simp [insertDesc]
  | cons x xs ih =>
    simp only [insertDesc]
    split
    · exact List.Perm.refl _
    · exact (ih.cons x).trans (List.Perm.swap r x xs)

theorem sortDesc_perm (l : List Resource) : List.Perm (sortDesc l) l := by
  induction l with
  | nil => simp [sortDesc]
  | cons x xs ih =>
    simp only [sortDesc, List.foldr_cons]
    exact (insertDesc_perm x _).trans (ih.cons x)

theorem mem_sortDesc {x : Resource} {l : List Resource} :
    x ∈ sortDesc l ↔ x ∈ l :=
  (sortDesc_perm l).mem_iff

theorem sortedDesc_insertDesc {r : Resource} {l : List Resource}
    (h : SortedDesc l) : SortedDesc (insertDesc r l) := by
  induction l with
  | nil => simp [insertDesc, SortedDesc]
  | cons x xs ih =>
    have hx : ∀ y ∈ xs, y.name ≤ x.name := (List.pairwise_cons.mp h).1
    have hxs : SortedDesc xs := (List.pairwise_cons.mp h).2
    simp only [insertDesc]
    split
    · refine List.pairwise_cons.mpr ⟨?_, h⟩
      intro y hy
      rcases List.mem_cons.mp hy with rfl | hy
      · assumption
      · exact le_trans (hx y hy) (by assumption)
    · refine List.pairwise_cons.mpr ⟨?_, ih hxs⟩
      intro y hy
      rcases List.mem_cons.mp ((insertDesc_perm r xs).mem_iff.mp hy) with rfl | hy
      · exact le_of_not_le (by assumption)
      · exact hx y hy

theorem sortedDesc_sortDesc (l : List Resource) : SortedDesc (sortDesc l) := by
  induction l with
  | nil => simp [sortDesc, SortedDesc]
  | cons x xs ih =>
    simpa only [sortDesc, List.foldr_cons] using sortedDesc_insertDesc ih

/-! Lemmas about de-duplication and join rows. -/

theorem dedupByIdAux_sublist (seen : List Nat) (l : List Resource) :
    List.Sublist (dedupByIdAux seen l) l := by
  induction l generalizing seen with
  | nil => simp [dedupByIdAux]
  | cons r rs ih =>
    simp only [dedupByIdAux]
    split
    · exact (ih seen).cons r
    · exact (ih (r.id :: seen)).cons₂ r

theorem mem_of_mem_dedupByIdAux {x : Resource} {seen : List Nat}
    {l : List Resource} (h : x ∈ dedupByIdAux seen l) : x ∈ l :=
  (dedupByIdAux_sublist seen l).mem h

theorem nodupIds_dedupByIdAux (l : List Resource) : ∀ seen : List Nat,
    ((dedupByIdAux seen l).map Resource.id).Nodup ∧
      ∀ x ∈ dedupByIdAux seen l, x.id ∉ seen := by
  induction l with
  | nil => simp [dedupByIdAux]
  | cons r rs ih =>
    intro seen
    simp only [dedupByIdAux]
    split
    · refine ⟨(ih seen).1, (ih seen).2⟩
    · refine ⟨?_, ?_⟩
      · refine List.nodup_cons.mpr ⟨?_, (ih (r.id :: seen)).1⟩
        intro hmem
        rcases List.mem_map.mp hmem with ⟨y, hy, hyid⟩
        exact (ih (r.id :: seen)).2 y hy (hyid ▸ List.mem_cons_self _ _)
      · intro x hx
        rcases List.mem_cons.mp hx with rfl | hx
        · assumption
        · intro hc
          exact (ih (r.id :: seen)).2 x hx (List.mem_cons_of_mem _ hc)

theorem nodup_dedupById (l : List Resource) : (dedupById l).Nodup :=
  List.Nodup.of_map Resource.id (nodupIds_dedupByIdAux l []).1

theorem mem_joinRows {x : Resource} {assoc : List (List Nat)}
    {l : List Resource} :
    x ∈ joinRows assoc l ↔ x ∈ l ∧ assignedB assoc x = true := by
  induction l with
  | nil => simp [joinRows]
  | cons r rs ih =>
    simp only [joinRows, List.mem_append, List.mem_replicate, ih,
      List.mem_cons]
    constructor
    · rintro (⟨hc, rfl⟩ | ⟨hx, ha⟩)
      · refine ⟨Or.inl rfl, ?_⟩
        simp only [assignedB, decide_eq_true_eq]
        omega
      · exact ⟨Or.inr hx, ha⟩
    · rintro ⟨rfl | hx, ha⟩
      · refine Or.inl ⟨?_, rfl⟩
        have hpos : 0 < assoc.countP (fun ids => decide (x.id ∈ ids)) := by
          simpa [assignedB] using ha
        omega
      · exact Or.inr ⟨hx, ha⟩

theorem pairwise_replicate_name (n : Nat) (r : Resource) :
    (List.replicate n r).Pairwise (fun a b => b.name ≤ a.name) := by
  induction n with
  | zero => simp
  | succ m ih =>
    simp only [List.replicate_succ]
    refine List.pairwise_cons.mpr ⟨?_, ih⟩
    intro y hy
    rw [List.eq_of_mem_replicate hy]

theorem pairwise_joinRows {assoc : List (List Nat)} {l : List Resource}
    (h : SortedDesc l) : (joinRows assoc l).Pairwise (fun a b => b.name ≤ a.name) := by
  induction l with
  | nil => simp [joinRows]
  | cons r rs ih =>
    have hr : ∀ y ∈ rs, y.name ≤ r.name := (List.pairwise_cons.mp h).1
    have hrs : SortedDesc rs := (List.pairwise_cons.mp h).2
    simp only [joinRows]
    refine List.pairwise_append.mpr ⟨pairwise_replicate_name _ _, ih hrs, ?_⟩
    intro a ha b hb
    rw [List.eq_of_mem_replicate ha]
    exact hr b (mem_joinRows.mp hb).1

theorem dedupByIdAux_replicate_of_mem {r : Resource} {seen : List Nat}
    (h : r.id ∈ seen) : ∀ (c : Nat) (rest : List Resource),
    dedupByIdAux seen (List.replicate c r ++ rest) = dedupByIdAux seen rest := by
  intro c
  induction c with
  | zero => simp
  | succ m ih =>
    intro rest
    simp only [List.replicate_succ, List.cons_append, dedupByIdAux, if_pos h]
    exact ih rest

theorem dedupByIdAux_joinRows {assoc : List (List Nat)} {l : List Resource}
    (hl : (l.map Resource.id).Nodup) : ∀ seen : List Nat,
    dedupByIdAux seen (joinRows assoc l)
      = l.filter (fun r => assignedB assoc r && !decide (r.id ∈ seen)) := by
  induction l with
  | nil => simp [joinRows, dedupByIdAux]
  | cons r rs ih =>
    intro seen
    have hrid : r.id ∉ rs.map Resource.id := (List.nodup_cons.mp hl).1
    have hrs : (rs.map Resource.id).Nodup := (List.nodup_cons.mp hl).2
    simp only [joinRows]
    cases hn : assoc.countP (fun ids => decide (r.id ∈ ids)) with
    | zero =>
      have hb : assignedB assoc r = false := by
        simp [assignedB, hn]
      simp only [List.replicate_zero, List.nil_append]
      rw [ih hrs seen]
      simp [List.filter_cons, hb]
    | succ m =>
      have hb : assignedB assoc r = true := by
        simp [assignedB, hn]
      by_cases hseen : r.id ∈ seen
      · rw [dedupByIdAux_replicate_of_mem hseen, ih hrs seen]
        simp [List.filter_cons, hseen, hb]
      · simp only [List.replicate_succ, List.cons_append, dedupByIdAux,
          if_neg hseen, List.append_eq]
        rw [dedupByIdAux_replicate_of_mem (List.mem_cons_self r.id seen),
          ih hrs (r.id :: seen)]
        have hfeq : rs.filter
              (fun x => assignedB assoc x && !decide (x.id ∈ r.id :: seen))
            = rs.filter (fun x => assignedB assoc x && !decide (x.id ∈ seen)) := by
          apply List.filter_congr
          intro x hx
          have hne : x.id ≠ r.id := fun he =>
            hrid (he ▸ List.mem_map_of_mem Resource.id hx)
          simp [List.mem_cons, hne]
        rw [hfeq]
        simp [List.filter_cons, hseen, hb]

theorem dedupById_joinRows {assoc : List (List Nat)} {l : List Resource}
    (hl : NodupIds l) :
    dedupById (joinRows assoc l) = l.filter (assignedB assoc) := by
  rw [dedupById, dedupByIdAux_joinRows hl []]
  apply List.filter_congr
  intro x hx
  simp

/-! Lemmas about the list operation. -/

theorem nodupIds_filter (p : Resource → Bool) {l : List Resource}
    (h : NodupIds l) : NodupIds (l.filter p) :=
  List.Nodup.sublist ((List.filter_sublist l).map Resource.id) h

theorem nodupIds_sortDesc {l : List Resource} (h : NodupIds l) :
    NodupIds (sortDesc l) :=
  (((sortDesc_perm l).map Resource.id).nodup_iff).mpr h

theorem mem_listCore_false {assoc : List (List Nat)} {records : List Resource}
    {u : UserId} {x : Resource} :
    x ∈ listCore assoc records u false ↔ x ∈ records ∧ x.owner = u := by
  simp [listCore, mem_sortDesc, List.mem_filter]

theorem listCore_true_eq {assoc : List (List Nat)} {records : List Resource}
    {u : UserId} (h : NodupIds records) :
    listCore assoc records u true
      = (sortDesc (records.filter (fun r => r.owner == u))).filter
          (assignedB assoc) := by
  simp only [listCore, if_pos]
  exact dedupById_joinRows (nodupIds_sortDesc (nodupIds_filter _ h))

theorem mem_listCore_true {assoc : List (List Nat)} {records : List Resource}
    {u : UserId} {x : Resource} (h : NodupIds records) :
    x ∈ listCore assoc records u true
      ↔ x ∈ records ∧ x.owner = u ∧ ∃ ids ∈ assoc, x.id ∈ ids := by
  rw [listCore_true_eq h]
  simp [List.mem_filter, mem_sortDesc, assignedB, List.countP_pos_iff,
    and_assoc]

theorem owner_of_mem_listCore {assoc : List (List Nat)}
    {records : List Resource} {u : UserId} {ao : Bool} {x : Resource}
    (h : x ∈ listCore assoc records u ao) : x.owner = u := by
  cases ao with
  | false => exact (mem_listCore_false.mp h).2
  | true =>
    simp only [listCore, if_pos] at h
    have hx : x ∈ joinRows assoc (sortDesc (records.filter (fun r => r.owner == u))) :=
      mem_of_mem_dedupByIdAux h
    have := (mem_joinRows.mp hx).1
    have := (List.mem_filter.mp (mem_sortDesc.mp this)).2
    simpa using this

theorem mem_listCore_false_of_mem_true {assoc : List (List Nat)}
    {records : List Resource} {u : UserId} {x : Resource}
    (h : x ∈ listCore assoc records u true) :
    x ∈ listCore assoc records u false := by
  simp only [listCore, if_pos] at h
  exact (mem_joinRows.mp (mem_of_mem_dedupByIdAux h)).1

theorem nodup_listCore_true (assoc : List (List Nat))
    (records : List Resource) (u : UserId) :
    (listCore assoc records u true).Nodup := by
  simp only [listCore, if_pos]
  exact nodup_dedupById _

theorem sortedDesc_listCore (assoc : List (List Nat))
    (records : List Resource) (u : UserId) (ao : Bool) :
    SortedDesc (listCore assoc records u ao) := by
  cases ao with
  | false => exact sortedDesc_sortDesc _
  | true =>
    simp only [listCore, if_pos]
    exact List.Pairwise.sublist (dedupByIdAux_sublist [] _)
      (pairwise_joinRows (sortedDesc_sortDesc _))

/-! Lemmas about the store plumbing. -/

theorem recordsOf_setRecords (k : Kind) (s : Store) (l : List Resource) :
    recordsOf k (setRecords k s l) = l := by
  cases k <;> rfl

theorem setRecords_recordsOf (k : Kind) (s : Store) :
    setRecords k s (recordsOf k s) = s := by
  cases k <;> rfl

theorem handle_list (u : UserId) (k : Kind) (ao : Bool) (s : Store) :
    handle (some u) k (Action.list ao) s
      = ({ status := Status.ok,
           body := listCore (assocOf k s) (recordsOf k s) u ao }, s) := rfl

theorem handle_update (u : UserId) (k : Kind) (i : Nat) (p : Patch)
    (s : Store) :
    handle (some u) k (Action.update i p) s
      = ({ status := (updateCore (recordsOf k s) u i p).1, body := [] },
          setRecords k s (updateCore (recordsOf k s) u i p).2) := rfl

theorem handle_delete (u : UserId) (k : Kind) (i : Nat) (s : Store) :
    handle (some u) k (Action.delete i) s
      = ({ status := (deleteCore (recordsOf k s) u i).1, body := [] },
          setRecords k s (deleteCore (recordsOf k s) u i).2) := rfl

theorem any_owned_of_exists {records : List Resource} {u : UserId} {i : Nat}
    (h : ∃ r ∈ records, r.id = i ∧ r.owner = u) :
    records.any (fun r => r.id == i && r.owner == u) = true := by
  obtain ⟨r, hr, hid, how⟩ := h
  exact List.any_eq_true.mpr ⟨r, hr, by simp [hid, how]⟩

theorem updateCore_map_id_owner (records : List Resource) (u : UserId)
    (i : Nat) (p : Patch) :
    (updateCore records u i p).2.map (fun r => (r.id, r.owner))
      = records.map (fun r => (r.id, r.owner)) := by
  by_cases hany : records.any (fun r => r.id == i && r.owner == u) = true
  · simp only [updateCore, if_pos hany, List.map_map]
    apply List.map_congr_left
    intro r hr
    simp only [Function.comp]
    split <;> rfl
  · simp [updateCore, hany]

theorem assocOf_ingredient_swapStore (s : Store) :
    assocOf Kind.ingredient (swapStore s) = assocOf Kind.tag s := by
  simp only [assocOf, swapStore, List.map_map]
  exact List.map_congr_left (fun r _ => rfl)

theorem assocOf_tag_swapStore (s : Store) :
    assocOf Kind.tag (swapStore s) = assocOf Kind.ingredient s := by
  simp only [assocOf, swapStore, List.map_map]
  exact List.map_congr_left (fun r _ => rfl)

/-! Concrete fixtures used by the closed witness statements, mirroring the
data the API test suites build. -/

def tagA : Resource := { id := 1, name := "Tag1", owner := 1 }

def tagB : Resource := { id := 2, name := "Tag2", owner := 2 }

def ingA : Resource := { id := 3, name := "Ing1", owner := 1 }

def recipeA : Recipe :=
  { id := 1, title := "Recipe", time_minutes := 5, price := 250, owner := 1,
    tags := [1], ingredients := [3] }

def sampleStore : Store :=
  { tags := [tagA, tagB], ingredients := [ingA], recipes := [recipeA] }

/-- Fixture for the uniqueness scenario: one tag owned by user 1 assigned
to two recipes, mirroring `test_filter_tags_unique`. -/
def dupStore : Store :=
  { tags := [{ id := 1, name := "tag1", owner := 1 }],
    ingredients := [],
    recipes :=
      [{ id := 1, title := "Recipe1", time_minutes := 5, price := 250,
         owner := 1, tags := [1], ingredients := [] },
       { id := 2, title := "Recipe2", time_minutes := 5, price := 250,
         owner := 1, tags := [1], ingredients := [] }] }

/-! Claim theorems. -/

/-- C1: for every two distinct users and either resource kind, the list
operation invoked by a user returns only instances owned by that user, so a
resource created by another user never appears in the result, regardless of
the global record set. -/
theorem c1_list_owner_scoped (s : Store) (u : UserId) (k : Kind) (ao : Bool)
    (r : Resource)
    (h : r ∈ (handle (some u) k (Action.list ao) s).1.body) : r.owner = u := by
  rw [handle_list] at h
  exact owner_of_mem_listCore h

/-- C1 witness: user 1's tag list over the sample store contains `tagA`,
whose owner the theorem pins to user 1 (so user 2's `tagB` cannot occur). -/
theorem c1_witness :
    tagA ∈ (handle (some 1) Kind.tag (Action.list false) sampleStore).1.body ∧
      tagA.owner = 1 :=
  ⟨by decide,
    c1_list_owner_scoped sampleStore 1 Kind.tag false tagA (by decide)⟩

/-- C2: update and delete against an id not owned by the requester (in
particular an id owned by a different user) answer NotFound and leave the
store completely unchanged, so the other user's record still exists. -/
theorem c2_foreign_id_not_found (k : Kind) (s : Store) (u : UserId) (i : Nat)
    (p : Patch) (h : ∀ r ∈ recordsOf k s, r.id = i → r.owner ≠ u) :
    handle (some u) k (Action.update i p) s
        = ({ status := Status.notFound, body := [] }, s) ∧
      handle (some u) k (Action.delete i) s
        = ({ status := Status.notFound, body := [] }, s) := by
  have hany : (recordsOf k s).any (fun r => r.id == i && r.owner == u)
      = false := by
    rw [List.any_eq_false]
    intro r hr
    simp only [Bool.and_eq_true, beq_iff_eq, not_and]
    exact fun hid => h r hr hid
  constructor
  · rw [handle_update]
    simp only [updateCore, hany, Bool.false_eq_true, if_false]
    rw [setRecords_recordsOf]
  · rw [handle_delete]
    simp only [deleteCore, hany, Bool.false_eq_true, if_false]
    rw [setRecords_recordsOf]

/-- C2 witness: user 1 attacking user 2's tag (id 2) in the sample store
gets NotFound from both update and delete, with the store intact. -/
theorem c2_witness :
    (∀ r ∈ recordsOf Kind.tag sampleStore, r.id = 2 → r.owner ≠ 1) ∧
      handle (some 1) Kind.tag (Action.update 2 { name := some "x", owner := none })
          sampleStore
        = ({ status := Status.notFound, body := [] }, sampleStore) ∧
      handle (some 1) Kind.tag (Action.delete 2) sampleStore
        = ({ status := Status.notFound, body := [] }, sampleStore) :=
  ⟨by decide,
    (c2_foreign_id_not_found Kind.tag sampleStore 1 2
      { name := some "x", owner := none } (by decide)).1,
    (c2_foreign_id_not_found Kind.tag sampleStore 1 2
      { name := some "x", owner := none } (by decide)).2⟩

/-- C3: an update never changes any record's stored owner (or id), whatever
the patch contains — in particular a patch assigning a different user to the
owner field is silently ignored — and the request against an owned record
still succeeds with Ok. -/
theorem c3_owner_immutable (k : Kind) (s : Store) (u : UserId) (i : Nat)
    (p : Patch) :
    (recordsOf k (handle (some u) k (Action.update i p) s).2).map
        (fun r => (r.id, r.owner))
      = (recordsOf k s).map (fun r => (r.id, r.owner)) ∧
    ((∃ r ∈ recordsOf k s, r.id = i ∧ r.owner = u) →
      (handle (some u) k (Action.update i p) s).1.status = Status.ok) := by
  constructor
  · rw [handle_update, recordsOf_setRecords]
    exact updateCore_map_id_owner _ _ _ _
  · intro h
    rw [handle_update]
    simp only [updateCore, any_owned_of_exists h, if_true]

/-- C3 witness: user 1 patching their tag (id 1) with a patch that assigns
owner 2 leaves every (id, owner) pair unchanged and still answers Ok. -/
theorem c3_witness :
    (recordsOf Kind.tag (handle (some 1) Kind.tag
          (Action.update 1 { name := none, owner := some 2 }) sampleStore).2).map
        (fun r => (r.id, r.owner))
      = (recordsOf Kind.tag sampleStore).map (fun r => (r.id, r.owner)) ∧
    (handle (some 1) Kind.tag (Action.update 1 { name := none, owner := some 2 })
        sampleStore).1.status = Status.ok :=
  ⟨(c3_owner_immutable Kind.tag sampleStore 1 1
      { name := none, owner := some 2 }).1,
    (c3_owner_immutable Kind.tag sampleStore 1 1
      { name := none, owner := some 2 }).2 (by decide)⟩

/-- C6: every list result, for either kind and either filter mode, is
sorted in descending order by name. -/
theorem c6_list_sorted_desc (k : Kind) (s : Store) (u : UserId) (ao : Bool) :
    SortedDesc (handle (some u) k (Action.list ao) s).1.body := by
  rw [handle_list]
  exact sortedDesc_listCore _ _ _ _

/-- C8: a request without an authenticated identity is answered with
Unauthorized, with an empty body and the store returned untouched — the
response does not depend on the store at all, so the rejection happens
before any resource logic. -/
theorem c8_unauthenticated_rejected (k : Kind) (a : Action) (s : Store) :
    handle none k a s
      = ({ status := Status.unauthorized, body := [] }, s) := rfl

/-- C9: the Tag and Ingredient endpoint families implement identical
behaviour: transporting a store along the tag/ingredient swap carries each
operation of one kind to the same-status, swap-related operation of the
other kind, in both directions. -/
theorem c9_tag_ingredient_equivalent (auth : Option UserId) (a : Action)
    (s : Store) :
    handle auth Kind.ingredient a (swapStore s)
        = ((handle auth Kind.tag a s).1,
            swapStore (handle auth Kind.tag a s).2) ∧
      handle auth Kind.tag a (swapStore s)
        = ((handle auth Kind.ingredient a s).1,
            swapStore (handle auth Kind.ingredient a s).2) := by
  cases auth with
  | none => exact ⟨rfl, rfl⟩
  | some u =>
    cases a with
    | list ao =>
      constructor
      · rw [handle_list, handle_list, assocOf_ingredient_swapStore]
        rfl
      · rw [handle_list, handle_list, assocOf_tag_swapStore]
        rfl
    | update i p => exact ⟨rfl, rfl⟩
    | delete i => exact ⟨rfl, rfl⟩

/-- C4: with well-formed (distinct) ids, `list(U, assigned_only := true)`
returns exactly the instances owned by `U` that occur in some recipe's
association set, the assignment check ranging over recipes owned by anyone:
an owned assigned instance is in the result, an owned unassigned one is
not. -/
theorem c4_assigned_only_exact (k : Kind) (s : Store) (u : UserId)
    (r : Resource) (h : NodupIds (recordsOf k s)) :
    r ∈ (handle (some u) k (Action.list true) s).1.body
      ↔ r ∈ recordsOf k s ∧ r.owner = u ∧ ∃ ids ∈ assocOf k s, r.id ∈ ids := by
  rw [handle_list]
  exact mem_listCore_true h

/-- C4 witness: in the sample store (assigned `tagA`, plus user 2's
unassigned `tagB`) the characterization holds at `tagA`, which is returned
because recipe 1 references id 1. -/
theorem c4_witness :
    NodupIds (recordsOf Kind.tag sampleStore) ∧
      (tagA ∈ (handle (some 1) Kind.tag (Action.list true) sampleStore).1.body
        ↔ tagA ∈ recordsOf Kind.tag sampleStore ∧ tagA.owner = 1 ∧
            ∃ ids ∈ assocOf Kind.tag sampleStore, tagA.id ∈ ids) :=
  ⟨by decide, c4_assigned_only_exact Kind.tag sampleStore 1 tagA (by decide)⟩

/-- C5 counterexample: in `dupStore` (the `test_filter_tags_unique`
scenario) the assigned-only result equals the unfiltered result, so it is a
subset but not a *strict* subset as the claim states. -/
theorem c5_counterexample :
    ¬ ((∀ x ∈ (handle (some 1) Kind.tag (Action.list true) dupStore).1.body,
          x ∈ (handle (some 1) Kind.tag (Action.list false) dupStore).1.body) ∧
        ∃ x ∈ (handle (some 1) Kind.tag (Action.list false) dupStore).1.body,
          x ∉ (handle (some 1) Kind.tag (Action.list true) dupStore).1.body) := by
  decide

/-- C5 (amended): the assigned-only result is a subset — not necessarily
strict — of the unfiltered result and contains no duplicate entries, even
when an instance is referenced by several recipes. -/
theorem c5_subset_nodup (k : Kind) (s : Store) (u : UserId) :
    (∀ x ∈ (handle (some u) k (Action.list true) s).1.body,
        x ∈ (handle (some u) k (Action.list false) s).1.body) ∧
      (handle (some u) k (Action.list true) s).1.body.Nodup := by
  rw [handle_list, handle_list]
  exact ⟨fun x hx => mem_listCore_false_of_mem_true hx,
    nodup_listCore_true _ _ _⟩

/-- C5 witness: in `dupStore`, with one tag assigned to two recipes, the
assigned-only result is a duplicate-free subset of the unfiltered result. -/
theorem c5_witness :
    (∀ x ∈ (handle (some 1) Kind.tag (Action.list true) dupStore).1.body,
        x ∈ (handle (some 1) Kind.tag (Action.list false) dupStore).1.body) ∧
      (handle (some 1) Kind.tag (Action.list true) dupStore).1.body.Nodup :=
  c5_subset_nodup Kind.tag dupStore 1

/-- C7: with well-formed (distinct) ids, deleting an owned record answers
NoContent and afterwards no record with that id remains, so every
subsequent lookup or existence check by that id fails. -/
theorem c7_delete_removes (k : Kind) (s : Store) (u : UserId) (i : Nat)
    (hn : NodupIds (recordsOf k s))
    (h : ∃ r ∈ recordsOf k s, r.id = i ∧ r.owner = u) :
    (handle (some u) k (Action.delete i) s).1.status = Status.noContent ∧
      ∀ r' ∈ recordsOf k (handle (some u) k (Action.delete i) s).2,
        r'.id ≠ i := by
  obtain ⟨r, hr, hid, how⟩ := h
  have hany : (recordsOf k s).any (fun x => x.id == i && x.owner == u)
      = true := any_owned_of_exists ⟨r, hr, hid, how⟩
  constructor
  · rw [handle_delete]
    simp only [deleteCore, hany, if_true]
  · intro r' hr' hid'
    rw [handle_delete, recordsOf_setRecords] at hr'
    simp only [deleteCore, hany, if_true] at hr'
    obtain ⟨hmem, hcond⟩ := List.mem_filter.mp hr'
    have hr'r : r' = r :=
      List.inj_on_of_nodup_map hn hmem hr (by rw [hid', hid])
    rw [hr'r, hid, how] at hcond
    simp at hcond

/-- C7 witness: user 1 deleting their tag (id 1) from the sample store gets
NoContent and the id-1 record is gone. -/
theorem c7_witness :
    NodupIds (recordsOf Kind.tag sampleStore) ∧
      ((handle (some 1) Kind.tag (Action.delete 1) sampleStore).1.status
          = Status.noContent ∧
        ∀ r' ∈ recordsOf Kind.tag
            (handle (some 1) Kind.tag (Action.delete 1) sampleStore).2,
          r'.id ≠ 1) :=
  ⟨by decide, c7_delete_removes Kind.tag sampleStore 1 1 (by decide)
    ⟨tagA, by decide, by decide, by decide⟩⟩

/-- C10: a partial update by the owner setting the name to `n` succeeds
with Ok; afterwards the record with that id carries name `n` with its id
and owner unchanged, and every other record is untouched. -/
theorem c10_update_name_applied (k : Kind) (s : Store) (u : UserId) (i : Nat)
    (n : String) (h : ∃ r ∈ recordsOf k s, r.id = i ∧ r.owner = u) :
    (handle (some u) k (Action.update i { name := some n, owner := none })
        s).1.status = Status.ok ∧
      (∃ r' ∈ recordsOf k (handle (some u) k
            (Action.update i { name := some n, owner := none }) s).2,
        r'.id = i ∧ r'.name = n ∧ r'.owner = u) ∧
      (∀ r' ∈ recordsOf k (handle (some u) k
            (Action.update i { name := some n, owner := none }) s).2,
        r'.id ≠ i → r' ∈ recordsOf k s) ∧
      (recordsOf k (handle (some u) k
            (Action.update i { name := some n, owner := none }) s).2).map
          (fun r => (r.id, r.owner))
        = (recordsOf k s).map (fun r => (r.id, r.owner)) := by
  obtain ⟨r, hr, hid, how⟩ := h
  have hany : (recordsOf k s).any (fun x => x.id == i && x.owner == u)
      = true := any_owned_of_exists ⟨r, hr, hid, how⟩
  refine ⟨?_, ?_, ?_, ?_⟩
  · rw [handle_update]
    simp only [updateCore, hany, if_true]
  · rw [handle_update, recordsOf_setRecords]
    simp only [updateCore, hany, if_true]
    refine ⟨{ r with name := n }, ?_, hid, rfl, how⟩
    have := List.mem_map_of_mem (fun x =>
      if x.id == i && x.owner == u then
        { x with name := (Patch.mk (some n) none).name.getD x.name }
      else x) hr
    simpa [hid, how] using this
  · intro r' hr' hne
    rw [handle_update, recordsOf_setRecords] at hr'
    simp only [updateCore, hany, if_true] at hr'
    obtain ⟨r0, hr0, heq⟩ := List.mem_map.mp hr'
    by_cases hc : (r0.id == i && r0.owner == u) = true
    · rw [if_pos hc] at heq
      exfalso
      apply hne
      rw [← heq]
      simpa using (Bool.and_eq_true _ _ |>.mp hc).1
    · rw [if_neg hc] at heq
      rw [← heq]
      exact hr0
  · rw [handle_update, recordsOf_setRecords]
    exact updateCore_map_id_owner _ _ _ _

/-- C10 witness: user 1 renaming their tag (id 1) to "tag2" in the sample
store succeeds and yields the renamed record with id and owner intact. -/
theorem c10_witness :
    (∃ r ∈ recordsOf Kind.tag sampleStore, r.id = 1 ∧ r.owner = 1) ∧
      ((handle (some 1) Kind.tag
          (Action.update 1 { name := some "tag2", owner := none })
          sampleStore).1.status = Status.ok ∧
        (∃ r' ∈ recordsOf Kind.tag (handle (some 1) Kind.tag
              (Action.update 1 { name := some "tag2", owner := none })
              sampleStore).2,
          r'.id = 1 ∧ r'.name = "tag2" ∧ r'.owner = 1) ∧
        (∀ r' ∈ recordsOf Kind.tag (handle (some 1) Kind.tag
              (Action.update 1 { name := some "tag2", owner := none })
              sampleStore).2,
          r'.id ≠ 1 → r' ∈ recordsOf Kind.tag sampleStore) ∧
        (recordsOf Kind.tag (handle (some 1) Kind.tag
              (Action.update 1 { name := some "tag2", owner := none })
              sampleStore).2).map (fun r => (r.id, r.owner))
          = (recordsOf Kind.tag sampleStore).map (fun r => (r.id, r.owner))) :=
  ⟨⟨tagA, by decide, by decide, by decide⟩,
    c10_update_name_applied Kind.tag sampleStore 1 1 "tag2"
      ⟨tagA, by decide, by decide, by decide⟩⟩

end RecipeApp
